import Mathlib

/-!
Shallow embedding of the audio_splitter repository's segmentation and export
engine, and proofs of the specification claims about it.

Modelling conventions:
* Python floats are modelled as rationals (ℚ): the claims are about the
  arithmetic structure of the code, not about IEEE-754 rounding.
* Python's stable `list.sort()` on numbers is modelled by
  `List.insertionSort (· ≤ ·)`; on a linear order any two sorted
  permutations of a list are equal, so this is observationally the same
  function as CPython's timsort on rational inputs.
* `int(x)` (truncation toward zero) is modelled by `pyInt`.
* File-system and codec effects are modelled as explicit event traces.
-/

namespace AudioSplitter

/-- Truncation toward zero, the semantics of Python's `int(x)` on a float. -/
def pyInt (q : ℚ) : ℤ := if q < 0 then ⌈q⌉ else ⌊q⌋

/-- Python's `sorted` / `list.sort()` on rationals. -/
def pySort (l : List ℚ) : List ℚ := List.insertionSort (· ≤ ·) l

/-! ## marker_manager.py : class MarkerManager

State of a `MarkerManager` instance (fields initialised in `__init__`). -/

structure MMState where
  markers : List ℚ
  excluded_splits : List (ℚ × ℚ)
  audio_filename : Option String
  audio_duration : ℚ
deriving DecidableEq

/-- `MarkerManager.add_marker` (marker_manager.py lines 19-37): refuse if an
existing marker lies strictly within `tolerance = 0.01` of `time`, else
append and re-sort.  Returns (return value, new state). -/
def add_marker (st : MMState) (time : ℚ) : Bool × MMState :=
  if st.markers.any (fun existing_time => |existing_time - time| < 1/100) then
    (false, st)
  else
    (true, { st with markers := pySort (st.markers ++ [time]) })

/-- Remove the first element satisfying `p`; `none` when no element matches.
Helper for `remove_marker` (Python's scan + `list.remove`). -/
def removeFirst (p : ℚ → Bool) : List ℚ → Option (List ℚ)
  | [] => none
  | x :: xs =>
    if p x then some xs
    else (removeFirst p xs).map (fun ys => x :: ys)

/-- `MarkerManager.remove_marker` (lines 39-54): remove the first marker
strictly within `tolerance` of `time`. -/
def remove_marker (st : MMState) (time : ℚ) (tolerance : ℚ := 1/10) :
    Bool × MMState :=
  match removeFirst (fun m => |m - time| < tolerance) st.markers with
  | some ms => (true, { st with markers := ms })
  | none => (false, st)

/-- Replace the first element satisfying `p` by `y`; `none` when no match.
Helper for `move_marker` (Python's indexed scan + assignment). -/
def replaceFirst (p : ℚ → Bool) (y : ℚ) : List ℚ → Option (List ℚ)
  | [] => none
  | x :: xs =>
    if p x then some (y :: xs)
    else (replaceFirst p y xs).map (fun ys => x :: ys)

/-- `MarkerManager.move_marker` (lines 56-73): overwrite the first marker
strictly within `tolerance` of `old_time` with `new_time`, then re-sort. -/
def move_marker (st : MMState) (old_time new_time : ℚ)
    (tolerance : ℚ := 1/10) : Bool × MMState :=
  match replaceFirst (fun m => |m - old_time| < tolerance) new_time st.markers with
  | some ms => (true, { st with markers := pySort ms })
  | none => (false, st)

/-- `MarkerManager._get_splits` (lines 186-203): empty list when there are no
markers; otherwise `(0, m₀)`, the pairs of consecutive markers, and
`(mₗₐₛₜ, duration)`. -/
def _get_splits (st : MMState) : List (ℚ × ℚ) :=
  match st.markers with
  | [] => []
  | m0 :: rest =>
    ((0, m0) :: (m0 :: rest).zip rest) ++
      [((m0 :: rest).getLast (List.cons_ne_nil m0 rest), st.audio_duration)]

/-! ## Basic lemmas about the sort and scan helpers -/

theorem pySort_perm (l : List ℚ) : (pySort l).Perm l :=
  List.perm_insertionSort _ l

theorem sorted_pySort (l : List ℚ) : (pySort l).Sorted (· ≤ ·) :=
  List.sorted_insertionSort _ l

theorem mem_pySort {x : ℚ} {l : List ℚ} : x ∈ pySort l ↔ x ∈ l :=
  (pySort_perm l).mem_iff

theorem length_pySort (l : List ℚ) : (pySort l).length = l.length :=
  List.length_insertionSort _ l

theorem removeFirst_sublist {p : ℚ → Bool} :
    ∀ {l l' : List ℚ}, removeFirst p l = some l' → l'.Sublist l := by
  intro l
  induction l with
  | nil => intro l' h; simp [removeFirst] at h
  | cons x xs ih =>
    intro l' h
    by_cases hx : p x
    · simp [removeFirst, hx] at h
      exact h ▸ List.sublist_cons_self x xs
    · simp [removeFirst, hx] at h
      obtain ⟨ys, hys, rfl⟩ := h
      exact (ih hys).cons₂ x

/-- The split list built from first marker `m0`, remaining markers `rest` and
duration `d` is contiguous: each interval ends where the next starts. -/
theorem chain_splits (d : ℚ) :
    ∀ (rest : List ℚ) (m0 : ℚ),
      List.Chain' (fun a b => a.2 = b.1)
        (((0, m0) :: (m0 :: rest).zip rest) ++
          [((m0 :: rest).getLast (List.cons_ne_nil m0 rest), d)]) := by
  intro rest
  induction rest with
  | nil => intro m0; simp
  | cons m1 rest ih =>
    intro m0
    have h := ih m1
    rw [List.getLast_cons (List.cons_ne_nil m1 rest)]
    simp only [List.cons_append, List.zip_cons_cons] at h ⊢
    rw [List.chain'_cons]
    refine ⟨rfl, ?_⟩
    rw [List.chain'_cons'] at h ⊢
    exact ⟨fun y hy => h.1 y hy, h.2⟩

end AudioSplitter

namespace AudioSplitter

/-- C1: for a marker list of length k the derived split list has k+1
contiguous intervals starting at 0 and ending at the recorded duration —
but only when k ≥ 1.  For k = 0 the code returns the empty list, not the
single split (0, duration); this theorem states the amended claim. -/
theorem C1_get_splits (st : MMState) :
    (st.markers = [] → _get_splits st = []) ∧
    (st.markers ≠ [] →
      (_get_splits st).length = st.markers.length + 1 ∧
      (_get_splits st).head?.map Prod.fst = some 0 ∧
      List.Chain' (fun a b => a.2 = b.1) (_get_splits st) ∧
      (_get_splits st).getLast?.map Prod.snd = some st.audio_duration) := by
  constructor
  · intro h
    simp [_get_splits, h]
  · intro h
    match hm : st.markers with
    | [] => exact absurd hm h
    | m0 :: rest =>
      refine ⟨?_, ?_, ?_, ?_⟩
      · simp [_get_splits, hm, List.length_zip]
      · simp [_get_splits, hm]
      · have := chain_splits st.audio_duration rest m0
        simpa [_get_splits, hm] using this
      · simp only [_get_splits, hm]
        rw [List.getLast?_concat]
        rfl

/-- C1 witness: the amended theorem evaluated at one marker at t = 2 with
duration 5, and at the empty marker list. -/
theorem C1_get_splits_witness :
    _get_splits ⟨[], [], none, 5⟩ = [] ∧
    ((_get_splits ⟨[2], [], none, 5⟩).length = ([2] : List ℚ).length + 1 ∧
      (_get_splits ⟨[2], [], none, 5⟩).head?.map Prod.fst = some 0 ∧
      List.Chain' (fun a b => a.2 = b.1) (_get_splits ⟨[2], [], none, 5⟩) ∧
      (_get_splits ⟨[2], [], none, 5⟩).getLast?.map Prod.snd = some 5) :=
  ⟨(C1_get_splits ⟨[], [], none, 5⟩).1 rfl,
    (C1_get_splits ⟨[2], [], none, 5⟩).2 (by decide)⟩

/-- C1 counterexample: with zero markers and duration 5 the code returns an
empty split list (length 0), not the k+1 = 1 intervals the claim predicts
for the k = 0 case. -/
theorem C1_counterexample :
    ¬ ((_get_splits ⟨[], [], none, 5⟩).length = 0 + 1) := by
  decide

/-! ## Marker-list invariants (from the spec's §3 data-model wording) -/

/-- Uniqueness within ε = 0.01 s: every pair of markers differs by ≥ 1/100. -/
def sepOK (l : List ℚ) : Prop := l.Pairwise (fun a b => 1/100 ≤ |b - a|)

/-- Range validity: every marker lies in [0, duration]. -/
def rangeOK (l : List ℚ) (dur : ℚ) : Prop := ∀ m ∈ l, 0 ≤ m ∧ m ≤ dur

/-- The three marker-list invariants of the spec's data model. -/
def MarkerInv (st : MMState) : Prop :=
  st.markers.Sorted (· ≤ ·) ∧ sepOK st.markers ∧
    rangeOK st.markers st.audio_duration

instance (l : List ℚ) : Decidable (sepOK l) := by
  unfold sepOK; infer_instance

instance (l : List ℚ) (d : ℚ) : Decidable (rangeOK l d) := by
  unfold rangeOK; infer_instance

instance (st : MMState) : Decidable (MarkerInv st) := by
  unfold MarkerInv List.Sorted; infer_instance

theorem addCond_true {l : List ℚ} {t : ℚ}
    (h : ∃ m ∈ l, |m - t| < 1/100) :
    (l.any fun existing_time => |existing_time - t| < 1/100) = true := by
  rcases h with ⟨m, hm, hmt⟩
  exact List.any_eq_true.mpr ⟨m, hm, decide_eq_true hmt⟩

theorem addCond_false {l : List ℚ} {t : ℚ}
    (h : ¬ ∃ m ∈ l, |m - t| < 1/100) :
    (l.any fun existing_time => |existing_time - t| < 1/100) = false := by
  rw [List.any_eq_false]
  intro m hm hdec
  exact h ⟨m, hm, of_decide_eq_true hdec⟩

theorem add_marker_of_cond_true {st : MMState} {t : ℚ}
    (h : ∃ m ∈ st.markers, |m - t| < 1/100) :
    add_marker st t = (false, st) := by
  unfold add_marker
  rw [addCond_true h]
  simp

theorem add_marker_of_cond_false {st : MMState} {t : ℚ}
    (h : ¬ ∃ m ∈ st.markers, |m - t| < 1/100) :
    add_marker st t = (true, { st with markers := pySort (st.markers ++ [t]) }) := by
  unfold add_marker
  rw [addCond_false h]
  simp

/-- C9: a second `add_marker` of the same timestamp is refused and changes
nothing; more generally the call is refused exactly when a marker lies
within 0.01 s of `t`, and otherwise inserts `t` and re-sorts. -/
theorem C9_add_marker (st : MMState) (t : ℚ) :
    add_marker (add_marker st t).2 t = (false, (add_marker st t).2) ∧
    ((∃ m ∈ st.markers, |m - t| < 1/100) → add_marker st t = (false, st)) ∧
    ((∀ m ∈ st.markers, ¬ |m - t| < 1/100) →
      (add_marker st t).1 = true ∧
      (add_marker st t).2.markers.Perm (t :: st.markers) ∧
      (add_marker st t).2.markers.Sorted (· ≤ ·) ∧
      t ∈ (add_marker st t).2.markers) := by
  by_cases hc : ∃ m ∈ st.markers, |m - t| < 1/100
  · have he := add_marker_of_cond_true hc
    refine ⟨?_, fun _ => he, fun hnone => ?_⟩
    · rw [he]
      exact he
    · exfalso
      rcases hc with ⟨m, hm, hmt⟩
      exact hnone m hm hmt
  · have he := add_marker_of_cond_false hc
    have hperm : (pySort (st.markers ++ [t])).Perm (t :: st.markers) :=
      (pySort_perm _).trans (List.perm_append_singleton t st.markers)
    have htmem : t ∈ pySort (st.markers ++ [t]) := by
      rw [mem_pySort]
      exact List.mem_append_right _ (List.mem_singleton.mpr rfl)
    refine ⟨?_, fun hex => absurd hex hc, fun _ => ?_⟩
    · rw [he]
      exact add_marker_of_cond_true ⟨t, htmem, by norm_num⟩
    · rw [he]
      exact ⟨rfl, hperm, sorted_pySort _, htmem⟩

/-- C9 witness: on the state with markers [1/2], re-adding 1/2 is refused
unchanged, a fresh timestamp 2 is inserted sorted, and the second add of 2
is a no-op. -/
theorem C9_add_marker_witness :
    add_marker (add_marker ⟨[1/2], [], none, 10⟩ 2).2 2 =
      (false, (add_marker ⟨[1/2], [], none, 10⟩ 2).2) ∧
    add_marker ⟨[1/2], [], none, 10⟩ (1/2) = (false, ⟨[1/2], [], none, 10⟩) ∧
    ((add_marker ⟨[1/2], [], none, 10⟩ 2).1 = true ∧
      (add_marker ⟨[1/2], [], none, 10⟩ 2).2.markers.Perm (2 :: [1/2]) ∧
      (add_marker ⟨[1/2], [], none, 10⟩ 2).2.markers.Sorted (· ≤ ·) ∧
      (2 : ℚ) ∈ (add_marker ⟨[1/2], [], none, 10⟩ 2).2.markers) :=
  ⟨(C9_add_marker ⟨[1/2], [], none, 10⟩ 2).1,
    (C9_add_marker ⟨[1/2], [], none, 10⟩ (1/2)).2.1
      ⟨1/2, by simp, by norm_num⟩,
    (C9_add_marker ⟨[1/2], [], none, 10⟩ 2).2.2
      (by
        intro m hm
        simp only [List.mem_singleton] at hm
        subst hm
        rw [abs_of_nonpos (by norm_num)]
        norm_num)⟩

/-- C10 (amended): all three mutations keep the list sorted; add and remove
also preserve uniqueness-within-ε; remove also preserves range validity,
and add preserves it when its argument is in range.  `move_marker` checks
neither collision nor range, and `add_marker` does not check range. -/
theorem C10_mutations (st : MMState) (t oldT newT tol : ℚ)
    (hs : st.markers.Sorted (· ≤ ·)) (hsep : sepOK st.markers)
    (hr : rangeOK st.markers st.audio_duration) :
    ((add_marker st t).2.markers.Sorted (· ≤ ·) ∧
      sepOK (add_marker st t).2.markers ∧
      (0 ≤ t → t ≤ st.audio_duration →
        rangeOK (add_marker st t).2.markers st.audio_duration)) ∧
    ((remove_marker st t tol).2.markers.Sorted (· ≤ ·) ∧
      sepOK (remove_marker st t tol).2.markers ∧
      rangeOK (remove_marker st t tol).2.markers st.audio_duration) ∧
    (move_marker st oldT newT tol).2.markers.Sorted (· ≤ ·) := by
  have hsymm : ∀ {x y : ℚ}, 1/100 ≤ |y - x| → 1/100 ≤ |x - y| := by
    intro x y h
    rwa [abs_sub_comm]
  refine ⟨?_, ?_, ?_⟩
  · by_cases hc : ∃ m ∈ st.markers, |m - t| < 1/100
    · have he : (add_marker st t).2 = st := by
        rw [add_marker_of_cond_true hc]
      rw [he]
      exact ⟨hs, hsep, fun _ _ => hr⟩
    · have he : (add_marker st t).2.markers = pySort (st.markers ++ [t]) := by
        rw [add_marker_of_cond_false hc]
      push_neg at hc
      rw [he]
      have hperm : (pySort (st.markers ++ [t])).Perm (t :: st.markers) :=
        (pySort_perm _).trans (List.perm_append_singleton t st.markers)
      refine ⟨sorted_pySort _, ?_, ?_⟩
      · have hcons : sepOK (t :: st.markers) := by
          rw [sepOK, List.pairwise_cons]
          exact ⟨fun m hm => hc m hm, hsep⟩
        exact hcons.perm hperm.symm (fun h => hsymm h)
      · intro ht0 ht1 m hm
        rcases List.mem_append.mp (mem_pySort.mp hm) with h | h
        · exact hr m h
        · rw [List.mem_singleton] at h
          exact h ▸ ⟨ht0, ht1⟩
  · rw [remove_marker]
    cases h : removeFirst (fun m => |m - t| < tol) st.markers with
    | none => exact ⟨hs, hsep, hr⟩
    | some ms =>
      have hsub := removeFirst_sublist h
      exact ⟨List.Pairwise.sublist hsub hs, List.Pairwise.sublist hsub hsep,
        fun m hm => hr m (hsub.subset hm)⟩
  · rw [move_marker]
    cases h : replaceFirst (fun m => |m - oldT| < tol) newT st.markers with
    | none => exact hs
    | some ms => exact sorted_pySort _

/-- C10 witness: the amended preservation theorem evaluated on the valid
state with markers [1], duration 10, adding t = 5 and moving 1 to 2. -/
theorem C10_mutations_witness :
    ((add_marker ⟨[1], [], none, 10⟩ 5).2.markers.Sorted (· ≤ ·) ∧
      sepOK (add_marker ⟨[1], [], none, 10⟩ 5).2.markers ∧
      rangeOK (add_marker ⟨[1], [], none, 10⟩ 5).2.markers 10) ∧
    ((remove_marker ⟨[1], [], none, 10⟩ 5 (1/10)).2.markers.Sorted (· ≤ ·) ∧
      sepOK (remove_marker ⟨[1], [], none, 10⟩ 5 (1/10)).2.markers ∧
      rangeOK (remove_marker ⟨[1], [], none, 10⟩ 5 (1/10)).2.markers 10) ∧
    (move_marker ⟨[1], [], none, 10⟩ 1 2 (1/10)).2.markers.Sorted (· ≤ ·) := by
  have h := C10_mutations ⟨[1], [], none, 10⟩ 5 1 2 (1/10)
    (by simp) (by simp [sepOK]) (by norm_num [rangeOK])
  exact ⟨⟨h.1.1, h.1.2.1, h.1.2.2 (by norm_num) (by norm_num)⟩, h.2.1, h.2.2⟩

/-- C10 counterexample: on the valid state with markers [0, 1] and duration
10, moving the marker at 1 onto 0 succeeds and yields the duplicate list
[0, 0], violating uniqueness-within-ε — so not every mutation preserves
the invariants. -/
theorem C10_counterexample :
    MarkerInv ⟨[0, 1], [], none, 10⟩ ∧
    (move_marker ⟨[0, 1], [], none, 10⟩ 1 0 (1/10)).2.markers = [0, 0] ∧
    ¬ MarkerInv (move_marker ⟨[0, 1], [], none, 10⟩ 1 0 (1/10)).2 := by
  have hmove : (move_marker ⟨[0, 1], [], none, 10⟩ 1 0 (1/10)).2.markers
      = [0, 0] := by
    norm_num [move_marker, replaceFirst, pySort, List.insertionSort,
      List.orderedInsert]
  refine ⟨?_, hmove, fun hbad => ?_⟩
  · norm_num [MarkerInv, sepOK, rangeOK, List.sorted_cons,
      List.pairwise_cons]
  · have hsep2 : sepOK [(0 : ℚ), 0] := hmove ▸ hbad.2.1
    rw [sepOK, List.pairwise_cons] at hsep2
    have := hsep2.1 0 (List.mem_singleton.mpr rfl)
    norm_num at this

/-! ## audio_processor.py : AudioProcessor.export_splits (lines 163-270)

The file-system and codec side effects are modelled by returning, for each
included split, the generated filename together with the start and end
sample indices used to slice the canonical buffer. -/

/-- `len(str(n))` for a natural number: the zero-padding width
`num_digits = len(str(num_exported))` (line 209). -/
def numDigits (n : ℕ) : ℕ := (toString n).length

/-- Python's `str.zfill` on a digit string: left-pad with zeros to width
`w` (line 253). -/
def zfill (s : String) (w : ℕ) : String :=
  ⟨List.replicate (w - s.length) '0' ++ s.data⟩

/-- The f-string of line 254: `f"{filename_prefix}_{split_number}.{output_format}"`
with `split_number = str(exported_count).zfill(num_digits)`. -/
def splitName (pfx fmt : String) (nd cnt : ℕ) : String :=
  pfx ++ "_" ++ zfill (toString cnt) nd ++ "." ++ fmt

/-- The per-split loop of `export_splits` (lines 215-264): iterate over the
split indices, skip excluded ones, and for each included split emit the
filename for the incremented `exported_count` and the slice bounds
`int(start_time * sample_rate)`, `int(end_time * sample_rate)`
(lines 225-226). -/
def exportLoop (split_times : List ℚ) (R : ℚ) (excluded : List ℕ)
    (pfx fmt : String) (nd : ℕ) : List ℕ → ℕ → List (String × ℤ × ℤ)
  | [], _ => []
  | i :: rest, exported_count =>
    if i ∈ excluded then
      exportLoop split_times R excluded pfx fmt nd rest exported_count
    else
      (splitName pfx fmt nd (exported_count + 1),
        pyInt (split_times.getD i 0 * R),
        pyInt (split_times.getD (i + 1) 0 * R)) ::
        exportLoop split_times R excluded pfx fmt nd rest (exported_count + 1)

/-- `AudioProcessor.export_splits` (lines 163-270), reduced to its
observable output: `split_times = sorted([0.0] + split_times + [duration])`
(line 204), `num_splits = len(split_times) - 1`,
`num_exported = num_splits - len(excluded_splits)`,
`num_digits = len(str(num_exported))` (lines 207-209), then the loop. -/
def export_splits (markers : List ℚ) (duration : ℚ) (R : ℚ)
    (excluded : List ℕ) (pfx fmt : String) : List (String × ℤ × ℤ) :=
  let split_times := pySort (0 :: (markers ++ [duration]))
  let num_splits := split_times.length - 1
  let num_exported := num_splits - excluded.length
  let nd := numDigits num_exported
  exportLoop split_times R excluded pfx fmt nd (List.range num_splits) 0

theorem exportLoop_length (split_times : List ℚ) (R : ℚ) (excluded : List ℕ)
    (pfx fmt : String) (nd : ℕ) :
    ∀ (l : List ℕ) (c : ℕ),
      (exportLoop split_times R excluded pfx fmt nd l c).length
        = (l.filter (fun i => decide (i ∉ excluded))).length := by
  intro l
  induction l with
  | nil => intro c; simp [exportLoop]
  | cons i rest ih =>
    intro c
    by_cases hi : i ∈ excluded <;> simp [exportLoop, hi, ih]

theorem exportLoop_names (split_times : List ℚ) (R : ℚ) (excluded : List ℕ)
    (pfx fmt : String) (nd : ℕ) :
    ∀ (l : List ℕ) (c : ℕ),
      (exportLoop split_times R excluded pfx fmt nd l c).map Prod.fst
        = (List.range' (c + 1)
            (l.filter (fun i => decide (i ∉ excluded))).length).map
            (splitName pfx fmt nd) := by
  intro l
  induction l with
  | nil => intro c; simp [exportLoop]
  | cons i rest ih =>
    intro c
    by_cases hi : i ∈ excluded
    · simp [exportLoop, hi, ih]
    · simp only [exportLoop, hi, if_false, List.map_cons, ih,
        List.filter_cons, decide_not]
      simp [hi, List.range'_succ]

theorem exportLoop_slices (split_times : List ℚ) (R : ℚ) (excluded : List ℕ)
    (pfx fmt : String) (nd : ℕ) :
    ∀ (l : List ℕ) (c : ℕ),
      (exportLoop split_times R excluded pfx fmt nd l c).map Prod.snd
        = (l.filter (fun i => decide (i ∉ excluded))).map
            (fun i => (pyInt (split_times.getD i 0 * R),
              pyInt (split_times.getD (i + 1) 0 * R))) := by
  intro l
  induction l with
  | nil => intro c; simp [exportLoop]
  | cons i rest ih =>
    intro c
    by_cases hi : i ∈ excluded <;> simp [exportLoop, hi, ih]

theorem length_filter_notMem_range (n : ℕ) (E : List ℕ) (hnd : E.Nodup)
    (hb : ∀ e ∈ E, e < n) :
    ((List.range n).filter (fun i => decide (i ∉ E))).length
      = n - E.length := by
  have hperm : ((List.range n).filter (fun i => decide (i ∈ E))).Perm E := by
    rw [List.perm_ext_iff_of_nodup (List.Nodup.filter _ (List.nodup_range n)) hnd]
    intro a
    simp only [List.mem_filter, List.mem_range, decide_eq_true_eq]
    exact ⟨fun h => h.2, fun h => ⟨hb a h, h⟩⟩
  have hsplit := List.length_eq_length_filter_add
    (l := List.range n) (fun i => decide (i ∈ E))
  rw [List.length_range] at hsplit
  have hlen : ((List.range n).filter (fun i => decide (i ∈ E))).length
      = E.length := hperm.length_eq
  have hnot : ((List.range n).filter (fun i => decide (i ∉ E))).length
      = ((List.range n).filter (fun i => !(decide (i ∈ E)))).length := by
    congr 1
    apply List.filter_congr
    intro x _
    simp
  omega

/-- C2: with k markers and a valid duplicate-free exclusion set E of split
indices, `export_splits` emits exactly k+1-|E| files, numbered 1..(k+1-|E|)
over included splits only, and zero-padded to the digit width of
k+1-|E|. -/
theorem C2_export_splits (markers : List ℚ) (duration R : ℚ)
    (excluded : List ℕ) (pfx fmt : String)
    (hnd : excluded.Nodup)
    (hb : ∀ e ∈ excluded, e < markers.length + 1) :
    (export_splits markers duration R excluded pfx fmt).length
        = markers.length + 1 - excluded.length ∧
    (export_splits markers duration R excluded pfx fmt).map Prod.fst
        = (List.range' 1 (markers.length + 1 - excluded.length)).map
            (splitName pfx fmt
              (numDigits (markers.length + 1 - excluded.length))) := by
  have hns : (pySort (0 :: (markers ++ [duration]))).length - 1
      = markers.length + 1 := by
    rw [length_pySort]
    simp
  constructor
  · simp only [export_splits, hns]
    rw [exportLoop_length, length_filter_notMem_range _ _ hnd hb]
  · simp only [export_splits, hns]
    rw [exportLoop_names, length_filter_notMem_range _ _ hnd hb]

/-- C2 witness: markers [1, 2] with duration 3 and split index 1 excluded
export exactly 2 files named by numbers 1 and 2 at width
`numDigits 2 = 1`. -/
theorem C2_export_splits_witness :
    (export_splits [1, 2] 3 1 [1] "p" "wav").length = 2 ∧
    (export_splits [1, 2] 3 1 [1] "p" "wav").map Prod.fst
        = (List.range' 1 2).map (splitName "p" "wav" (numDigits 2)) :=
  C2_export_splits [1, 2] 3 1 [1] "p" "wav" (by decide) (by decide)

/-- C5 (amended): each included split (start, end) is sliced at sample
frames `int(start*R)` and `int(end*R)` — truncation toward zero (equal to
floor on the non-negative times that occur), applied identically to both
boundaries, not round-to-nearest. -/
theorem C5_export_slice_bounds (markers : List ℚ) (duration R : ℚ)
    (excluded : List ℕ) (pfx fmt : String) :
    ((export_splits markers duration R excluded pfx fmt).map Prod.snd
        = ((List.range ((pySort (0 :: (markers ++ [duration]))).length - 1)).filter
            (fun i => decide (i ∉ excluded))).map
            (fun i =>
              (pyInt ((pySort (0 :: (markers ++ [duration]))).getD i 0 * R),
                pyInt ((pySort (0 :: (markers ++ [duration]))).getD (i + 1) 0 * R)))) ∧
    (∀ q : ℚ, 0 ≤ q → pyInt q = ⌊q⌋) := by
  constructor
  · simp only [export_splits]
    exact exportLoop_slices _ _ _ _ _ _ _ _
  · intro q hq
    rw [pyInt, if_neg (not_lt.mpr hq)]

/-- C5 witness: the slice-bound characterisation at markers [1/2], duration
1, source rate 4, plus truncation evaluated at 3/2. -/
theorem C5_export_slice_bounds_witness :
    ((export_splits [1/2] 1 4 [] "p" "wav").map Prod.snd
        = ((List.range ((pySort ((0 : ℚ) :: ([1/2] ++ [1]))).length - 1)).filter
            (fun i => decide (i ∉ ([] : List ℕ)))).map
            (fun i =>
              (pyInt ((pySort ((0 : ℚ) :: ([1/2] ++ [1]))).getD i 0 * 4),
                pyInt ((pySort ((0 : ℚ) :: ([1/2] ++ [1]))).getD (i + 1) 0 * 4)))) ∧
    pyInt (3/2) = ⌊(3/2 : ℚ)⌋ :=
  ⟨(C5_export_slice_bounds [1/2] 1 4 [] "p" "wav").1,
    (C5_export_slice_bounds [1/2] 1 4 [] "p" "wav").2 (3/2) (by norm_num)⟩

/-- C5 counterexample: with one marker at 4/5, duration 1 and source rate
2, the second split starts at time 4/5 and the code slices it at sample
`int(8/5) = 1`, while the claim's `round(start*R) = round(8/5) = 2` — the
code truncates rather than rounds. -/
theorem C5_counterexample :
    (export_splits [4/5] 1 2 [] "p" "wav").map (fun e => e.2.1) = [0, 1] ∧
    round ((4/5 : ℚ) * 2) = 2 ∧
    (1 : ℤ) ≠ round ((4/5 : ℚ) * 2) := by
  refine ⟨?_, by norm_num [round_eq], by norm_num [round_eq]⟩
  have hts : pySort ((0 : ℚ) :: ([4/5] ++ [1])) = [0, 4/5, 1] := by
    norm_num [pySort, List.insertionSort, List.orderedInsert]
  have hr2 : List.range 2 = [0, 1] := by decide
  simp only [export_splits, hts]
  norm_num [exportLoop, pyInt, hr2]

/-! ## marker_manager.py : JSON persistence (lines 109-172)

A small JSON value model.  `save_to_json` serialises the state to a JSON
value (the file write itself is an external effect); `load_from_json` takes
the result of opening-and-parsing the file (`Except.error` when `open` or
`json.load` raised) and performs the assignment sequence of lines 156-167,
recording exactly which fields have been assigned when a later step
raises.  Deviations from CPython that no claim exercises: values of
unexpected dynamic type inside `markers` sort only when comparable (here:
only numbers parse), and non-numeric entries inside an `excluded_splits`
pair fail instead of being stored untyped. -/

inductive Json where
  | null
  | bool (b : Bool)
  | num (q : ℚ)
  | str (s : String)
  | arr (xs : List Json)
  | obj (fields : List (String × Json))

/-- `dict.get(k)`: the value at the first matching key, if any. -/
def jGet (fields : List (String × Json)) (k : String) : Option Json :=
  (fields.find? (fun p => p.1 == k)).map Prod.snd

/-- `dict.get(k, d)`: lookup with default. -/
def jGetD (fields : List (String × Json)) (k : String) (d : Json) : Json :=
  (jGet fields k).getD d

/-- Whether a JSON value is an array: `isinstance(x, list)` (line 162). -/
def Json.isArr : Json → Bool
  | .arr _ => true
  | _ => false

def asNum : Json → Option ℚ
  | .num q => some q
  | _ => none

/-- A `[start, end]` pair entry of `excluded_splits`; anything else raises
during the `for start, end in ...` unpacking (line 164). -/
def asPair : Json → Option (ℚ × ℚ)
  | .arr [a, b] =>
    match asNum a, asNum b with
    | some x, some y => some (x, y)
    | _, _ => none
  | _ => none

/-- A Python comprehension over `l`: the first failing element aborts the
whole conversion. -/
def parseList (f : Json → Option (ℚ × ℚ)) : List Json → Option (List (ℚ × ℚ))
  | [] => some []
  | x :: xs =>
    match f x with
    | none => none
    | some y => (parseList f xs).map (fun ys => y :: ys)

/-- Element-wise numeric conversion of a `markers` array. -/
def parseNumsGo : List Json → Option (List ℚ)
  | [] => some []
  | x :: xs =>
    match asNum x with
    | none => none
    | some y => (parseNumsGo xs).map (fun ys => y :: ys)

/-- `sorted(data.get("markers", []))` (line 157): every element must be a
number, then sort. -/
def parseNums : Json → Option (List ℚ)
  | .arr xs => parseNumsGo xs
  | _ => none

/-- `MarkerManager.save_to_json` (lines 109-140): the JSON document written
on success — filename, markers, exclusions as `[start, end]` pairs, and
duration. -/
def save_to_json (st : MMState) : Json :=
  .obj [("audio_filename",
          match st.audio_filename with
          | some s => .str s
          | none => .null),
        ("markers", .arr (st.markers.map .num)),
        ("excluded_splits",
          .arr (st.excluded_splits.map (fun p => .arr [.num p.1, .num p.2]))),
        ("audio_duration", .num st.audio_duration)]

/-- `MarkerManager.load_from_json` (lines 142-172).  The assignments of
lines 156-158 happen in order before the exclusion conversion of lines
161-167; an exception at any step is caught by the `except` block, which
returns failure but keeps every assignment already made. -/
def load_from_json (st : MMState) (input : Except String Json) :
    Bool × MMState :=
  match input with
  | .error _ => (false, st)
  | .ok data =>
    match data with
    | .obj fields =>
      let st1 := { st with audio_filename :=
        (match jGet fields "audio_filename" with
          | some (.str s) => some s
          | _ => none) }
      match parseNums (jGetD fields "markers" (.arr [])) with
      | none => (false, st1)
      | some ms =>
        let st2 := { st1 with markers := pySort ms }
        let st3 := { st2 with audio_duration :=
          (match jGet fields "audio_duration" with
            | some (.num q) => q
            | _ => 0) }
        match jGetD fields "excluded_splits" (.arr []) with
        | .arr [] => (true, { st3 with excluded_splits := [] })
        | .arr (e0 :: rest) =>
          if e0.isArr then
            match parseList asPair (e0 :: rest) with
            | some ps => (true, { st3 with excluded_splits := ps })
            | none => (false, st3)
          else
            (true, { st3 with excluded_splits := [] })
        | _ => (true, { st3 with excluded_splits := [] })
    | _ => (false, st)

theorem parseNumsGo_map (ms : List ℚ) :
    parseNumsGo (ms.map Json.num) = some ms := by
  induction ms with
  | nil => rfl
  | cons m ms ih => simp [parseNumsGo, asNum, ih]

theorem parseList_map_pair (ps : List (ℚ × ℚ)) :
    parseList asPair (ps.map (fun p => Json.arr [.num p.1, .num p.2]))
      = some ps := by
  induction ps with
  | nil => rfl
  | cons p ps ih => simp [parseList, asPair, asNum, ih]

/-- C3: saving a state with a sorted marker list and loading the document
back (into any state) succeeds and reproduces the marker list and the
exclusion pairs value-for-value; and a document whose `excluded_splits`
starts with a non-list element (the legacy index format) loads with an
empty exclusion set. -/
theorem C3_roundtrip_legacy (st st2 : MMState)
    (hs : st.markers.Sorted (· ≤ ·))
    (ms : List ℚ) (d : ℚ) (e0 : Json) (rest : List Json)
    (he0 : e0.isArr = false) :
    ((load_from_json st2 (.ok (save_to_json st))).1 = true ∧
      (load_from_json st2 (.ok (save_to_json st))).2.markers = st.markers ∧
      (load_from_json st2 (.ok (save_to_json st))).2.excluded_splits
        = st.excluded_splits) ∧
    ((load_from_json st2 (.ok (Json.obj
        [("audio_filename", Json.null),
          ("markers", Json.arr (ms.map Json.num)),
          ("excluded_splits", Json.arr (e0 :: rest)),
          ("audio_duration", Json.num d)]))).1 = true ∧
      (load_from_json st2 (.ok (Json.obj
        [("audio_filename", Json.null),
          ("markers", Json.arr (ms.map Json.num)),
          ("excluded_splits", Json.arr (e0 :: rest)),
          ("audio_duration", Json.num d)]))).2.excluded_splits = []) := by
  constructor
  · obtain ⟨mk, exc, fn, dur⟩ := st
    simp only [List.Sorted] at hs
    cases exc with
    | nil =>
      simp [load_from_json, save_to_json, jGet, jGetD, List.find?,
        parseNums, parseNumsGo_map, pySort,
        List.Sorted.insertionSort_eq hs]
    | cons p ps =>
      have hpl := parseList_map_pair (p :: ps)
      simp only [List.map_cons] at hpl
      simp [load_from_json, save_to_json, jGet, jGetD, List.find?,
        parseNums, parseNumsGo_map, pySort,
        List.Sorted.insertionSort_eq hs, Json.isArr, hpl]
  · simp [load_from_json, jGet, jGetD, List.find?, parseNums,
      parseNumsGo_map, he0]

/-- C3 witness: round trip of markers [1, 2] with exclusion (0, 1) and
duration 3, and a legacy document with index entries 0 and 2. -/
theorem C3_roundtrip_legacy_witness :
    ((load_from_json ⟨[], [], none, 0⟩
        (.ok (save_to_json ⟨[1, 2], [(0, 1)], some "a.wav", 3⟩))).1 = true ∧
      (load_from_json ⟨[], [], none, 0⟩
        (.ok (save_to_json ⟨[1, 2], [(0, 1)], some "a.wav", 3⟩))).2.markers
        = ([1, 2] : List ℚ) ∧
      (load_from_json ⟨[], [], none, 0⟩
        (.ok (save_to_json ⟨[1, 2], [(0, 1)], some "a.wav", 3⟩))).2.excluded_splits
        = ([(0, 1)] : List (ℚ × ℚ))) ∧
    ((load_from_json ⟨[], [], none, 0⟩ (.ok (Json.obj
        [("audio_filename", Json.null),
          ("markers", Json.arr (([1] : List ℚ).map Json.num)),
          ("excluded_splits", Json.arr (Json.num 0 :: [Json.num 2])),
          ("audio_duration", Json.num 5)]))).1 = true ∧
      (load_from_json ⟨[], [], none, 0⟩ (.ok (Json.obj
        [("audio_filename", Json.null),
          ("markers", Json.arr (([1] : List ℚ).map Json.num)),
          ("excluded_splits", Json.arr (Json.num 0 :: [Json.num 2])),
          ("audio_duration", Json.num 5)]))).2.excluded_splits = []) :=
  C3_roundtrip_legacy ⟨[1, 2], [(0, 1)], some "a.wav", 3⟩ ⟨[], [], none, 0⟩
    (by norm_num [List.sorted_cons]) [1] 5 (Json.num 0) [Json.num 2] rfl

/-- C8 (amended): when opening or parsing the marker file fails (the
`except` path is entered before any assignment of lines 156-158 ran), the
in-memory state is returned untouched with a failure flag. -/
theorem C8_load_error_keeps_state (st : MMState) (e : String) :
    load_from_json st (Except.error e) = (false, st) := rfl

/-- C8 counterexample: a well-formed JSON object whose `markers` list mixes
a number and a string makes `sorted()` raise after `audio_filename` was
already assigned (line 156 precedes line 157), so the failed load leaves
the state mutated — not "exactly as it was before the call". -/
theorem C8_counterexample :
    (load_from_json ⟨[], [], some "old.wav", 0⟩ (Except.ok (Json.obj
      [("audio_filename", Json.str "new.wav"),
        ("markers", Json.arr [Json.num 1, Json.str "x"])]))).1 = false ∧
    (load_from_json ⟨[], [], some "old.wav", 0⟩ (Except.ok (Json.obj
      [("audio_filename", Json.str "new.wav"),
        ("markers", Json.arr [Json.num 1, Json.str "x"])]))).2.audio_filename
      = some "new.wav" ∧
    (load_from_json ⟨[], [], some "old.wav", 0⟩ (Except.ok (Json.obj
      [("audio_filename", Json.str "new.wav"),
        ("markers", Json.arr [Json.num 1, Json.str "x"])]))).2
      ≠ (⟨[], [], some "old.wav", 0⟩ : MMState) := by
  refine ⟨?_, ?_, ?_⟩
  · simp [load_from_json, jGet, jGetD, List.find?, parseNums, parseNumsGo,
      asNum]
  · simp [load_from_json, jGet, jGetD, List.find?, parseNums, parseNumsGo,
      asNum]
  · intro h
    have := congrArg MMState.audio_filename h
    simp [load_from_json, jGet, jGetD, List.find?, parseNums, parseNumsGo,
      asNum] at this

/-! ## audio_processor.py : AudioProcessor.detect_silence (lines 87-161)

The librosa calls are external collaborators: `librosa.feature.rms` +
`librosa.amplitude_to_db(…, ref=np.max)` produce the buffer-relative dB
value of each analysis frame, which enters the model as the input list
`rms_db`; `librosa.frames_to_time` maps frame index `i` to
`i * hop_length / sr`, embedded as `framesToTime`.  Everything from line
125 on (thresholding, run merging, minimum-duration filtering, closing a
run at the buffer end) is repository code and is embedded below. -/

/-- `librosa.frames_to_time(np.arange(n), sr, hop_length)` (lines 128-132):
frame `i` starts at `i * hop / sr` seconds. -/
def framesToTime (n : ℕ) (sr hop : ℕ) : List ℚ :=
  (List.range n).map (fun i : ℕ => ((i : ℚ) * (hop : ℚ)) / (sr : ℚ))

/-- The loop state of lines 135-137. -/
structure SilenceAcc where
  regions : List (ℚ × ℚ)
  in_silence : Bool
  silence_start : ℚ

/-- One iteration of the loop of lines 139-152 over a
`(is_silent, time)` pair. -/
def silenceStep (min_silence_duration : ℚ) (acc : SilenceAcc)
    (p : Bool × ℚ) : SilenceAcc :=
  if p.1 && !acc.in_silence then
    { acc with in_silence := true, silence_start := p.2 }
  else if !p.1 && acc.in_silence then
    { acc with
        regions :=
          if p.2 - acc.silence_start ≥ min_silence_duration then
            acc.regions ++ [(acc.silence_start, p.2)]
          else acc.regions,
        in_silence := false }
  else acc

/-- The tail handling of lines 154-159: a run still open at the end of the
buffer is closed at the recorded duration, subject to the same
minimum-duration check. -/
def finishSilence (duration min_silence_duration : ℚ) (acc : SilenceAcc) :
    List (ℚ × ℚ) :=
  if acc.in_silence then
    (if duration - acc.silence_start ≥ min_silence_duration then
      acc.regions ++ [(acc.silence_start, duration)]
    else acc.regions)
  else acc.regions

/-- `AudioProcessor.detect_silence` (lines 87-161) on the frame dB values:
mark frames strictly below the threshold (line 125), fold the region
loop over `zip(silent_frames, times)` (line 139), then close a pending
run at the buffer end. -/
def detect_silence (rms_db : List ℚ) (sr hop : ℕ) (duration : ℚ)
    (threshold_db min_silence_duration : ℚ) : List (ℚ × ℚ) :=
  let silent_frames := rms_db.map (fun x => decide (x < threshold_db))
  let times := framesToTime rms_db.length sr hop
  finishSilence duration min_silence_duration
    ((silent_frames.zip times).foldl (silenceStep min_silence_duration)
      ⟨[], false, 0⟩)

/-- Reference form of the spec sentence: walk the `(silent, time)` pairs;
outside a run, a silent frame opens a run at its time; inside a run, the
first non-silent frame closes the run at its time; a run still open at
the end of input is closed at the buffer duration. -/
def runsFrom (duration : ℚ) : Option ℚ → List (Bool × ℚ) → List (ℚ × ℚ)
  | none, [] => []
  | some start, [] => [(start, duration)]
  | none, (b, t) :: rest =>
    if b then runsFrom duration (some t) rest
    else runsFrom duration none rest
  | some start, (b, t) :: rest =>
    if b then runsFrom duration (some start) rest
    else (start, t) :: runsFrom duration none rest

/-- Keep only regions of duration at least the minimum. -/
def filterMin (md : ℚ) (rs : List (ℚ × ℚ)) : List (ℚ × ℚ) :=
  rs.filter (fun r => r.2 - r.1 ≥ md)

/-- Regions are ordered: each starts no earlier than `lo`, no region is
reversed, and each subsequent region starts after the previous ends. -/
def RegionsOrdered : ℚ → List (ℚ × ℚ) → Prop
  | _, [] => True
  | lo, r :: rs => lo ≤ r.1 ∧ r.1 ≤ r.2 ∧ RegionsOrdered r.2 rs

theorem regionsOrdered_mono :
    ∀ {rs : List (ℚ × ℚ)} {lo lo' : ℚ}, lo' ≤ lo →
      RegionsOrdered lo rs → RegionsOrdered lo' rs
  | [], _, _, _, _ => trivial
  | _ :: _, _, _, h, hr => ⟨h.trans hr.1, hr.2.1, hr.2.2⟩

theorem foldl_silenceStep (duration md : ℚ) :
    ∀ (l : List (Bool × ℚ)) (acc : List (ℚ × ℚ)) (flag : Bool) (start : ℚ),
      finishSilence duration md (l.foldl (silenceStep md) ⟨acc, flag, start⟩)
        = acc ++ filterMin md
            (runsFrom duration (if flag then some start else none) l) := by
  intro l
  induction l with
  | nil =>
    intro acc flag start
    cases flag with
    | false => simp [finishSilence, runsFrom, filterMin]
    | true =>
      by_cases hd : duration - start ≥ md <;>
        simp [finishSilence, runsFrom, filterMin, List.filter, hd]
  | cons p rest ih =>
    intro acc flag start
    obtain ⟨b, t⟩ := p
    cases b with
    | true =>
      cases flag with
      | false => simpa [silenceStep, runsFrom] using ih acc true t
      | true => simpa [silenceStep, runsFrom] using ih acc true start
    | false =>
      cases flag with
      | false => simpa [silenceStep, runsFrom] using ih acc false start
      | true =>
        by_cases hd : t - start ≥ md
        · have := ih (acc ++ [(start, t)]) false start
          simpa [silenceStep, runsFrom, filterMin, List.filter_cons, hd,
            List.append_assoc] using this
        · have := ih acc false start
          simpa [silenceStep, runsFrom, filterMin, List.filter_cons, hd]
            using this

theorem detect_silence_eq (rms_db : List ℚ) (sr hop : ℕ)
    (duration θ md : ℚ) :
    detect_silence rms_db sr hop duration θ md
      = filterMin md (runsFrom duration none
          ((rms_db.map (fun x => decide (x < θ))).zip
            (framesToTime rms_db.length sr hop))) := by
  have h := foldl_silenceStep duration md
    ((rms_db.map (fun x => decide (x < θ))).zip
      (framesToTime rms_db.length sr hop)) [] false 0
  simpa [detect_silence] using h

theorem runsFrom_ordered (duration : ℚ) :
    ∀ (l : List (Bool × ℚ)) (lo : ℚ),
      (l.map Prod.snd).Pairwise (· ≤ ·) →
      (∀ p ∈ l, p.2 ≤ duration) →
      (∀ p ∈ l, lo ≤ p.2) →
      lo ≤ duration →
      RegionsOrdered lo (runsFrom duration none l) ∧
      RegionsOrdered lo (runsFrom duration (some lo) l) := by
  intro l
  induction l with
  | nil =>
    intro lo _ _ _ hld
    exact ⟨trivial, le_refl lo, hld, trivial⟩
  | cons p rest ih =>
    intro lo hpw hdur hlo hld
    obtain ⟨b, t⟩ := p
    rw [List.map_cons, List.pairwise_cons] at hpw
    have hrest_t : ∀ q ∈ rest, t ≤ q.2 := fun q hq =>
      hpw.1 q.2 (List.mem_map_of_mem Prod.snd hq)
    have hrest_dur : ∀ q ∈ rest, q.2 ≤ duration := fun q hq =>
      hdur q (List.mem_cons_of_mem _ hq)
    have hrest_lo : ∀ q ∈ rest, lo ≤ q.2 := fun q hq =>
      hlo q (List.mem_cons_of_mem _ hq)
    have ht_dur : t ≤ duration := hdur (b, t) (List.mem_cons_self _ _)
    have hlo_t : lo ≤ t := hlo (b, t) (List.mem_cons_self _ _)
    constructor
    · cases b with
      | true =>
        simp only [runsFrom, if_true]
        exact regionsOrdered_mono hlo_t
          (ih t hpw.2 hrest_dur hrest_t ht_dur).2
      | false =>
        simp only [runsFrom, if_false]
        exact (ih lo hpw.2 hrest_dur hrest_lo hld).1
    · cases b with
      | true =>
        simp only [runsFrom, if_true]
        exact (ih lo hpw.2 hrest_dur hrest_lo hld).2
      | false =>
        simp only [runsFrom, if_false]
        exact ⟨le_refl lo, hlo_t,
          (ih t hpw.2 hrest_dur hrest_t ht_dur).1⟩

theorem filterMin_ordered (md : ℚ) :
    ∀ (rs : List (ℚ × ℚ)) (lo : ℚ),
      RegionsOrdered lo rs → RegionsOrdered lo (filterMin md rs) := by
  intro rs
  induction rs with
  | nil => intro lo _; trivial
  | cons r rs ih =>
    intro lo h
    obtain ⟨h1, h2, h3⟩ := h
    by_cases hk : r.2 - r.1 ≥ md
    · rw [filterMin, List.filter_cons, if_pos (by simpa using hk)]
      exact ⟨h1, h2, ih r.2 h3⟩
    · rw [filterMin, List.filter_cons, if_neg (by simpa using hk)]
      exact regionsOrdered_mono (h1.trans h2) (ih r.2 h3)

theorem regionsOrdered_chain :
    ∀ (rs : List (ℚ × ℚ)) (lo : ℚ), RegionsOrdered lo rs →
      List.Chain' (fun a b => a.2 ≤ b.1) rs ∧ ∀ r ∈ rs, r.1 ≤ r.2 := by
  intro rs
  induction rs with
  | nil => intro lo _; simp
  | cons r rs ih =>
    intro lo h
    obtain ⟨h1, h2, h3⟩ := h
    have hrec := ih r.2 h3
    constructor
    · rw [List.chain'_cons']
      refine ⟨fun y hy => ?_, hrec.1⟩
      cases rs with
      | nil => simp at hy
      | cons r2 rs2 =>
        simp only [List.head?_cons, Option.mem_def, Option.some_inj] at hy
        exact hy ▸ h3.1
    · intro q hq
      rcases List.mem_cons.mp hq with rfl | hq2
      · exact h2
      · exact hrec.2 q hq2

theorem framesToTime_pairwise (n sr hop : ℕ) :
    (framesToTime n sr hop).Pairwise (· ≤ ·) := by
  rw [framesToTime]
  refine List.Pairwise.map _ ?_ (List.pairwise_lt_range n)
  intro i j hij
  have hmul : (i : ℚ) * hop ≤ (j : ℚ) * hop := by
    have hc : (i : ℚ) ≤ j := by exact_mod_cast hij.le
    exact mul_le_mul_of_nonneg_right hc (by positivity)
  rw [div_eq_mul_inv, div_eq_mul_inv]
  exact mul_le_mul_of_nonneg_right hmul (by positivity)

theorem framesToTime_nonneg (n sr hop : ℕ) :
    ∀ t ∈ framesToTime n sr hop, 0 ≤ t := by
  intro t ht
  rw [framesToTime, List.mem_map] at ht
  obtain ⟨i, _, rfl⟩ := ht
  exact div_nonneg (by positivity) (by positivity)

/-- C6: `detect_silence` marks exactly the analysis frames whose
buffer-relative dB value is below the threshold, merges consecutive
silent frames into maximal regions, keeps a region iff its duration is at
least the minimum, closes a region still open at the buffer end at the
recorded duration (all captured by the equality with the run-based
reference form), and the returned intervals are ordered and
non-overlapping. -/
theorem C6_detect_silence (rms_db : List ℚ) (sr hop : ℕ)
    (duration θ md : ℚ)
    (hbound : ∀ t ∈ framesToTime rms_db.length sr hop, t ≤ duration)
    (hdur0 : 0 ≤ duration) :
    detect_silence rms_db sr hop duration θ md
      = filterMin md (runsFrom duration none
          ((rms_db.map (fun x => decide (x < θ))).zip
            (framesToTime rms_db.length sr hop))) ∧
    (∀ r ∈ detect_silence rms_db sr hop duration θ md, md ≤ r.2 - r.1) ∧
    List.Chain' (fun a b => a.2 ≤ b.1)
      (detect_silence rms_db sr hop duration θ md) ∧
    (∀ r ∈ detect_silence rms_db sr hop duration θ md, r.1 ≤ r.2) := by
  have heq := detect_silence_eq rms_db sr hop duration θ md
  have hsnd : ((rms_db.map (fun x => decide (x < θ))).zip
      (framesToTime rms_db.length sr hop)).map Prod.snd
      = framesToTime rms_db.length sr hop := by
    apply List.map_snd_zip
    simp [framesToTime]
  have hmem : ∀ p ∈ (rms_db.map (fun x => decide (x < θ))).zip
      (framesToTime rms_db.length sr hop),
      p.2 ∈ framesToTime rms_db.length sr hop := by
    intro p hp
    rw [← hsnd]
    exact List.mem_map_of_mem _ hp
  have hord : RegionsOrdered 0 (runsFrom duration none
      ((rms_db.map (fun x => decide (x < θ))).zip
        (framesToTime rms_db.length sr hop))) :=
    (runsFrom_ordered duration _ 0
      (by rw [hsnd]; exact framesToTime_pairwise _ _ _)
      (fun p hp => hbound p.2 (hmem p hp))
      (fun p hp => framesToTime_nonneg _ _ _ p.2 (hmem p hp))
      hdur0).1
  have hchain := regionsOrdered_chain _ 0 (filterMin_ordered md _ 0 hord)
  refine ⟨heq, ?_, ?_, ?_⟩
  · intro r hr
    rw [heq, filterMin, List.mem_filter] at hr
    simpa using hr.2
  · rw [heq]
    exact hchain.1
  · rw [heq]
    exact hchain.2

/-- C6 witness: two silent frames at times 0 and 1 (dB −50 against
threshold −40) in a buffer of duration 2 with minimum duration 1; the run
is still open at the end and is closed at time 2. -/
theorem C6_detect_silence_witness :
    (detect_silence [-50, -50] 1 1 2 (-40) 1
      = filterMin 1 (runsFrom 2 none
          ((([-50, -50] : List ℚ).map (fun x => decide (x < -40))).zip
            (framesToTime ([(-50 : ℚ), -50]).length 1 1))) ∧
    (∀ r ∈ detect_silence [-50, -50] 1 1 2 (-40) 1, (1 : ℚ) ≤ r.2 - r.1) ∧
    List.Chain' (fun a b => a.2 ≤ b.1)
      (detect_silence [-50, -50] 1 1 2 (-40) 1) ∧
    (∀ r ∈ detect_silence [-50, -50] 1 1 2 (-40) 1, r.1 ≤ r.2)) ∧
    detect_silence [-50, -50] 1 1 2 (-40) 1 = [(0, 2)] := by
  have hft : framesToTime ([(-50 : ℚ), -50]).length 1 1 = [0, 1] := by
    rw [framesToTime]
    rw [show List.range ([(-50 : ℚ), -50]).length = [0, 1] from by decide]
    norm_num
  constructor
  · refine C6_detect_silence [-50, -50] 1 1 2 (-40) 1 ?_ (by norm_num)
    intro t ht
    rw [hft] at ht
    rcases List.mem_cons.mp ht with rfl | ht2
    · norm_num
    · rw [List.mem_singleton] at ht2
      rw [ht2]
      norm_num
  · rw [detect_silence_eq, hft]
    norm_num [runsFrom, filterMin, List.filter]

/-! ## audio_processor.py : AudioProcessor._export_audio (lines 305-352)

File-system effects modelled as an event trace.  WAV and FLAC are written
directly (lines 320-326).  Other formats write a temporary WAV (line 332),
re-load it, encode via pydub when the format is mp3 or ogg (lines 346-349)
and only then reach `os.remove(temp_wav)` (line 352) — straight-line code
with no try/finally, so an exception raised by the encoder propagates to
the caller before the removal runs.  `encode_ok` models whether the pydub
`export` call raises. -/

inductive FsOp where
  | writeDirect
  | writeTemp
  | encodeOut
  | removeTemp
deriving DecidableEq

/-- Trace of `_export_audio`: the file-system events in order, and whether
the call returned normally (`true`) or propagated an exception. -/
def _export_audio (format : String) (encode_ok : Bool) :
    List FsOp × Bool :=
  if format = "wav" then ([.writeDirect], true)
  else if format = "flac" then ([.writeDirect], true)
  else if format = "mp3" ∨ format = "ogg" then
    (if encode_ok then ([.writeTemp, .encodeOut, .removeTemp], true)
     else ([.writeTemp], false))
  else ([.writeTemp, .removeTemp], true)

/-- C7 (amended): for a lossy (mp3/ogg) export the intermediate WAV is
always written; it is removed again when the encode returns normally, but
when the encode raises, the removal on line 352 is never reached and the
artifact is left behind — cleanup is guaranteed only on the success
path. -/
theorem C7_temp_cleanup (format : String) (encode_ok : Bool)
    (hf : format = "mp3" ∨ format = "ogg") :
    FsOp.writeTemp ∈ (_export_audio format encode_ok).1 ∧
    (encode_ok = true →
      FsOp.removeTemp ∈ (_export_audio format encode_ok).1 ∧
      (_export_audio format encode_ok).2 = true) ∧
    (encode_ok = false →
      FsOp.removeTemp ∉ (_export_audio format encode_ok).1 ∧
      (_export_audio format encode_ok).2 = false) := by
  rcases hf with rfl | rfl <;> cases encode_ok <;>
    simp [_export_audio]

/-- C7 witness: a successful mp3 encode writes and then removes the
intermediate WAV. -/
theorem C7_temp_cleanup_witness :
    FsOp.writeTemp ∈ (_export_audio "mp3" true).1 ∧
    FsOp.removeTemp ∈ (_export_audio "mp3" true).1 ∧
    (_export_audio "mp3" true).2 = true :=
  ⟨(C7_temp_cleanup "mp3" true (Or.inl rfl)).1,
    ((C7_temp_cleanup "mp3" true (Or.inl rfl)).2.1 rfl).1,
    ((C7_temp_cleanup "mp3" true (Or.inl rfl)).2.1 rfl).2⟩

/-- C7 counterexample: an ogg export whose encoder raises leaves the
intermediate WAV on disk — the removal is not executed on the error path,
contradicting "removed regardless of whether the encode succeeds or
fails". -/
theorem C7_counterexample :
    FsOp.writeTemp ∈ (_export_audio "ogg" false).1 ∧
    FsOp.removeTemp ∉ (_export_audio "ogg" false).1 ∧
    (_export_audio "ogg" false).2 = false := by
  simp [_export_audio]

/-! ## Concatenation (spec §4.4 step 7) -/

/-- Modelled from the spec: the silence block inserted between consecutive
segments — `silence_duration_ms` milliseconds of true silence rendered at
the target sample rate `R`, i.e. `round(ms·R/1000)` zero-valued frames.
The implementation `AudioProcessor.concat_splits` is missing from the
repository sources (only its call site `_concat_splits_delayed` in
audio_splitter_app.py lines 678-693 exists). -/
def silenceBlockFrames (silence_ms R : ℕ) : ℕ :=
  (round (((silence_ms : ℚ) * (R : ℚ)) / 1000)).toNat

/-- Modelled from the spec: `concat_splits` joins the already-trimmed
included segments in split order, inserting one silence block between
consecutive segments only — never before the first or after the last
(spec §4.4 step 7; the claim's duration equation reads on the trimmed
segment durations, so segments enter the model post-trim). -/
def concat_splits (segs : List (List ℚ)) (R silence_ms : ℕ) : List ℚ :=
  (segs.intersperse
    (List.replicate (silenceBlockFrames silence_ms R) 0)).flatten

theorem length_flatten_intersperse (sep : List ℚ) :
    ∀ (segs : List (List ℚ)), segs ≠ [] →
      ((segs.intersperse sep).flatten).length
        = (segs.map List.length).sum + (segs.length - 1) * sep.length := by
  intro segs
  induction segs with
  | nil => intro h; exact absurd rfl h
  | cons s rest ih =>
    intro _
    cases rest with
    | nil => simp [List.intersperse]
    | cons s2 rest2 =>
      have hstep : List.intersperse sep (s :: s2 :: rest2)
          = s :: sep :: List.intersperse sep (s2 :: rest2) := by
        simp [List.intersperse]
      have hrec := ih (List.cons_ne_nil s2 rest2)
      rw [hstep]
      simp only [List.flatten_cons, List.length_append, hrec,
        List.map_cons, List.sum_cons, List.length_cons,
        Nat.add_sub_cancel]
      ring

theorem silenceBlock_cast (silence_ms R : ℕ) :
    (silenceBlockFrames silence_ms R : ℚ)
      = (round (((silence_ms : ℚ) * (R : ℚ)) / 1000) : ℤ) := by
  have h : (0 : ℤ) ≤ round (((silence_ms : ℚ) * (R : ℚ)) / 1000) := by
    rw [round_eq, Int.le_floor]
    push_cast
    positivity
  rw [silenceBlockFrames]
  exact_mod_cast Int.toNat_of_nonneg h

/-- C4 (amended, spec-modelled): the concatenation's duration is the sum
of the trimmed included segment durations plus one silence block per
junction (count − 1 junctions, none before the first or after the last
segment); each block's duration is within half a sample frame of ms/1000,
the total deviation from the ideal duration is at most (count−1)
half-frames — not one frame overall, see the counterexample — and when
`ms·R` is a multiple of 1000 (e.g. the app's 500 ms at 44100 Hz) the
equation is exact. -/
theorem C4_concat_duration (segs : List (List ℚ)) (R silence_ms : ℕ)
    (hR : 0 < R) (hne : segs ≠ []) :
    ((concat_splits segs R silence_ms).length : ℚ) / R
        = ((segs.map List.length).sum : ℚ) / R
          + ((segs.length - 1 : ℕ) : ℚ)
            * ((silenceBlockFrames silence_ms R : ℚ) / R) ∧
    |(silenceBlockFrames silence_ms R : ℚ) / R - (silence_ms : ℚ) / 1000|
        ≤ 1 / (2 * R) ∧
    |((concat_splits segs R silence_ms).length : ℚ) / R
        - (((segs.map List.length).sum : ℚ) / R
            + ((silence_ms : ℚ) / 1000) * ((segs.length - 1 : ℕ) : ℚ))|
        ≤ ((segs.length - 1 : ℕ) : ℚ) * (1 / (2 * R)) ∧
    ((1000 : ℕ) ∣ silence_ms * R →
      ((concat_splits segs R silence_ms).length : ℚ) / R
        = ((segs.map List.length).sum : ℚ) / R
          + ((silence_ms : ℚ) / 1000) * ((segs.length - 1 : ℕ) : ℚ)) := by
  have hRQ : (0 : ℚ) < R := by exact_mod_cast hR
  have hlen := length_flatten_intersperse
    (List.replicate (silenceBlockFrames silence_ms R) 0) segs hne
  have hmain : ((concat_splits segs R silence_ms).length : ℚ) / R
      = ((segs.map List.length).sum : ℚ) / R
        + ((segs.length - 1 : ℕ) : ℚ)
          * ((silenceBlockFrames silence_ms R : ℚ) / R) := by
    rw [concat_splits, hlen]
    push_cast [List.length_replicate]
    ring
  have hblock : |(silenceBlockFrames silence_ms R : ℚ) / R
      - (silence_ms : ℚ) / 1000| ≤ 1 / (2 * R) := by
    have hms : (silence_ms : ℚ) / 1000
        = (((silence_ms : ℚ) * (R : ℚ)) / 1000) / R := by
      field_simp
      ring
    rw [silenceBlock_cast, hms, div_sub_div_same, abs_div,
      abs_of_pos hRQ]
    rw [div_le_div_iff₀ hRQ (by positivity)]
    have habs := abs_sub_round (((silence_ms : ℚ) * (R : ℚ)) / 1000)
    rw [abs_sub_comm] at habs
    calc |(round (((silence_ms : ℚ) * (R : ℚ)) / 1000) : ℤ)
          - ((silence_ms : ℚ) * (R : ℚ)) / 1000| * (2 * R)
        ≤ (1 / 2) * (2 * R) := by
          apply mul_le_mul_of_nonneg_right habs (by positivity)
      _ = 1 * R := by ring
  refine ⟨hmain, hblock, ?_, ?_⟩
  · rw [hmain]
    have h1 : ((segs.map List.length).sum : ℚ) / R
        + ((segs.length - 1 : ℕ) : ℚ)
          * ((silenceBlockFrames silence_ms R : ℚ) / R)
        - (((segs.map List.length).sum : ℚ) / R
          + ((silence_ms : ℚ) / 1000) * ((segs.length - 1 : ℕ) : ℚ))
        = ((segs.length - 1 : ℕ) : ℚ)
          * ((silenceBlockFrames silence_ms R : ℚ) / R
            - (silence_ms : ℚ) / 1000) := by
      ring
    rw [h1, abs_mul, abs_of_nonneg (by positivity :
      (0 : ℚ) ≤ ((segs.length - 1 : ℕ) : ℚ))]
    exact mul_le_mul_of_nonneg_left hblock (by positivity)
  · intro hdvd
    obtain ⟨k, hk⟩ := hdvd
    have hx : ((silence_ms : ℚ) * (R : ℚ)) / 1000 = (k : ℚ) := by
      have : ((silence_ms : ℚ) * (R : ℚ)) = 1000 * (k : ℚ) := by
        exact_mod_cast congrArg (fun n : ℕ => (n : ℚ)) hk
      rw [this]
      ring
    have hexact : (silenceBlockFrames silence_ms R : ℚ) / R
        = (silence_ms : ℚ) / 1000 := by
      rw [silenceBlock_cast, hx, round_natCast]
      push_cast
      rw [← hx]
      field_simp
      ring
    rw [hmain, hexact]
    ring

/-- C4 witness: two trimmed segments of 2 and 1 frames at 2 Hz with a
500 ms gap — one silence frame between them, total duration 4/2 = 2 s,
exactly the segment durations plus one 0.5 s block. -/
theorem C4_concat_duration_witness :
    ((concat_splits [[1, 2], [3]] 2 500).length : ℚ) / 2
        = ((([[1, 2], [3]] : List (List ℚ)).map List.length).sum : ℚ) / 2
          + ((([[1, 2], [3]] : List (List ℚ)).length - 1 : ℕ) : ℚ)
            * ((silenceBlockFrames 500 2 : ℚ) / 2) ∧
    ((1000 : ℕ) ∣ 500 * 2 →
      ((concat_splits [[1, 2], [3]] 2 500).length : ℚ) / 2
        = ((([[1, 2], [3]] : List (List ℚ)).map List.length).sum : ℚ) / 2
          + ((500 : ℚ) / 1000)
            * ((([[1, 2], [3]] : List (List ℚ)).length - 1 : ℕ) : ℚ)) :=
  ⟨(C4_concat_duration [[1, 2], [3]] 2 500 (by norm_num)
      (List.cons_ne_nil _ _)).1,
    (C4_concat_duration [[1, 2], [3]] 2 500 (by norm_num)
      (List.cons_ne_nil _ _)).2.2.2⟩

/-- C4 counterexample: four one-frame segments at R = 1500 Hz with a 1 ms
gap.  A 1 ms block at 1500 Hz is 1.5 frames, rounded to 2, so each of the
three junctions deviates by half a frame and the output lasts 10/1500 s
against the ideal 4/1500 + 3/1000 s — a total deviation of 1/1000 s,
which exceeds the one sample-frame (1/1500 s) tolerance the claim
asserts. -/
theorem C4_counterexample :
    silenceBlockFrames 1 1500 = 2 ∧
    (concat_splits [[1], [1], [1], [1]] 1500 1).length = 10 ∧
    ¬ (|((concat_splits [[1], [1], [1], [1]] 1500 1).length : ℚ) / 1500
        - (((([[1], [1], [1], [1]] : List (List ℚ)).map List.length).sum : ℚ)
              / 1500
            + ((1 : ℚ) / 1000)
              * ((([[1], [1], [1], [1]] : List (List ℚ)).length - 1 : ℕ) : ℚ))|
        ≤ 1 / 1500) := by
  have hsil : silenceBlockFrames 1 1500 = 2 := by
    norm_num [silenceBlockFrames, round_eq]
    decide
  have hlen : (concat_splits [[1], [1], [1], [1]] 1500 1).length = 10 := by
    simp [concat_splits, hsil, List.intersperse, List.replicate]
  refine ⟨hsil, hlen, ?_⟩
  rw [hlen]
  have hval : ((10 : ℕ) : ℚ) / 1500
      - (((([[1], [1], [1], [1]] : List (List ℚ)).map List.length).sum : ℚ)
            / 1500
          + ((1 : ℚ) / 1000)
            * ((([[1], [1], [1], [1]] : List (List ℚ)).length - 1 : ℕ) : ℚ))
      = 1 / 1000 := by
    norm_num
  rw [hval, abs_of_pos (by norm_num)]
  norm_num

end AudioSplitter
